import Mathlib

/-!
Shallow embedding of the bitset library (src/bitset.h, src/bitset.c) and
verification of its specification claims.

Modelling conventions:
* a C `bitset` struct value is a `Bitset`: the `_Bool *bits` buffer is
  `Option (List Bool)` (`none` models a NULL buffer pointer), `size_t len`
  is a `Nat`;
* a `bitset *` handle is an `Option Bitset` (`none` models a NULL handle);
  functions that mutate through the handle return the status code together
  with the new pointed-to value;
* a `const char *` string argument is an `Option (List Char)`; the list
  holds the pointed-to characters, and reading past the end of the list
  models reaching the NUL terminator (an explicit `Char.ofNat 0` element
  models an embedded terminator byte);
* `malloc`/`calloc` success is an explicit `Bool` parameter (`true` means
  the allocation succeeds) on the functions that allocate;
* `memcpy`/`memmove`/`memset` on a region of the buffer are modelled by
  `memwrite`, which splices the source values in at the destination offset;
  `memmove` reads its source region before any write, so passing the
  pre-call list as the source is exact;
* C element loops (`for (i = 0; i < len; i++) bits[i] = ...`) are modelled
  by `mapLoop`, a fuel-indexed loop that updates one cell per step, with
  out-of-range reads defaulting to `false` and out-of-range writes being
  no-ops (such accesses never occur on states satisfying the buffer-length
  invariant proved below).
-/

/-- Status code BITSET_GOOD from src/bitset.h. -/
def BITSET_GOOD : Nat := 0

/-- Status code BITSET_NULL_ERR from src/bitset.h. -/
def BITSET_NULL_ERR : Nat := 1

/-- Status code BITSET_ALLOC_ERR from src/bitset.h. -/
def BITSET_ALLOC_ERR : Nat := 2

/-- Status code BITSET_LENGTH_ERR from src/bitset.h. -/
def BITSET_LENGTH_ERR : Nat := 3

/-- Number of bits written per character, CHAR_LEN from src/bitset.c. -/
def CHAR_LEN : Nat := 8

/-- Model of the C struct bitset_t: a nullable bit buffer and a length. -/
structure Bitset where
  bits : Option (List Bool)
  len : Nat
deriving DecidableEq

/-- Model of memcpy/memmove/memset into the region of dst starting at
offset off: the cells [off, off + src.length) take the values of src and
every other cell keeps its value (when the write is in bounds). -/
def memwrite (dst : List Bool) (off : Nat) (src : List Bool) : List Bool :=
  dst.take off ++ src ++ dst.drop (off + src.length)

/-- Model of a C loop for i in [start, start + fuel) doing
l[i] = g i l[i], one cell per step. -/
def mapLoop (g : Nat → Bool → Bool) (l : List Bool) (start fuel : Nat) : List Bool :=
  match fuel with
  | 0 => l
  | f + 1 => mapLoop g (l.set start (g start (l.getD start false))) (start + 1) f

/-- Embedding of bitset_init (src/bitset.c lines 22-32): the length field
is written before the allocation is attempted, and the buffer pointer
receives the calloc result (null on failure). -/
def bitset_init (b : Option Bitset) (n : Nat) (alloc : Bool) : Nat × Option Bitset :=
  match b with
  | none => (BITSET_NULL_ERR, none)
  | some s =>
    if n = 0 then (BITSET_NULL_ERR, some s)
    else if alloc then (BITSET_GOOD, some ⟨some (List.replicate n false), n⟩)
    else (BITSET_ALLOC_ERR, some ⟨none, n⟩)

/-- Embedding of the cell-filling loop of bitset_init_bstr (src/bitset.c
line 52-53): for i in [start, start + fuel), stop at the terminator,
otherwise set cell i to whether character i is '1'. -/
def bstr_loop (bits : List Bool) (str : List Char) (start fuel : Nat) : List Bool :=
  match fuel with
  | 0 => bits
  | f + 1 =>
    match str[start]? with
    | none => bits
    | some c =>
      if c = Char.ofNat 0 then bits
      else bstr_loop (bits.set start (if c = '1' then true else false)) str (start + 1) f

/-- Embedding of bitset_init_bstr (src/bitset.c lines 43-56). -/
def bitset_init_bstr (b : Option Bitset) (str : Option (List Char)) (n : Nat)
    (alloc : Bool) : Nat × Option Bitset :=
  match b, str with
  | some s, some cs =>
    if n = 0 then (BITSET_NULL_ERR, some s)
    else if alloc then
      (BITSET_GOOD, some ⟨some (bstr_loop (List.replicate n false) cs 0 n), n⟩)
    else (BITSET_ALLOC_ERR, some ⟨none, n⟩)
  | _, _ => (BITSET_NULL_ERR, b)

/-- Embedding of the do-while loop of bits_from_char (src/bitset.c lines
347-350): write the low bit of c at index b, then continue with c / 2 at
index b - 1 while c / 2 is nonzero. The source's caller passes an
unsigned char (c < 2 to the power b + 1 with b = 7), so the loop always
stops at or before index 0; recursion on b makes that bound structural. -/
def bfc_loop (bits : List Bool) (c : Nat) : Nat → List Bool
  | 0 => bits.set 0 (decide (c % 2 = 1))
  | b + 1 =>
    let bits2 := bits.set (b + 1) (decide (c % 2 = 1))
    if c / 2 > 0 then bfc_loop bits2 (c / 2) b else bits2

/-- Embedding of bits_from_char (src/bitset.c lines 343-352): an 8-cell
big-endian expansion of the byte c, starting from a zeroed buffer. -/
def bits_from_char (c : Nat) : List Bool :=
  bfc_loop (List.replicate CHAR_LEN false) c (CHAR_LEN - 1)

/-- Embedding of the slice-filling loop of bitset_init_str (src/bitset.c
lines 77-80): for i in [start, start + fuel), stop at the terminator,
otherwise memcpy the 8-bit expansion of character i (converted to
unsigned char, hence mod 256) into cells [8 i, 8 i + 8). -/
def str_loop (bits : List Bool) (str : List Char) (start fuel : Nat) : List Bool :=
  match fuel with
  | 0 => bits
  | f + 1 =>
    match str[start]? with
    | none => bits
    | some c =>
      if c = Char.ofNat 0 then bits
      else str_loop (memwrite bits (start * CHAR_LEN) (bits_from_char (c.toNat % 256)))
        str (start + 1) f

/-- Embedding of bitset_init_str (src/bitset.c lines 68-83): the length
field is set to n * CHAR_LEN before the allocation is attempted. -/
def bitset_init_str (b : Option Bitset) (str : Option (List Char)) (n : Nat)
    (alloc : Bool) : Nat × Option Bitset :=
  match b, str with
  | some s, some cs =>
    if n = 0 then (BITSET_NULL_ERR, some s)
    else if alloc then
      (BITSET_GOOD,
        some ⟨some (str_loop (List.replicate (n * CHAR_LEN) false) cs 0 n), n * CHAR_LEN⟩)
    else (BITSET_ALLOC_ERR, some ⟨none, n * CHAR_LEN⟩)
  | _, _ => (BITSET_NULL_ERR, b)

/-- Embedding of bitset_and (src/bitset.c lines 144-153); the second
returned state is the right operand, which the source takes as a const
pointer and never writes. -/
def bitset_and (lhs rhs : Option Bitset) : Nat × Option Bitset × Option Bitset :=
  match lhs, rhs with
  | some L, some R =>
    match L.bits, R.bits with
    | some l, some r =>
      if L.len ≠ R.len then (BITSET_LENGTH_ERR, some L, some R)
      else
        (BITSET_GOOD,
          some { L with bits := some (mapLoop (fun i x => x && r.getD i false) l 0 L.len) },
          some R)
    | _, _ => (BITSET_NULL_ERR, some L, some R)
  | _, _ => (BITSET_NULL_ERR, lhs, rhs)

/-- Embedding of bitset_or (src/bitset.c lines 163-172). -/
def bitset_or (lhs rhs : Option Bitset) : Nat × Option Bitset × Option Bitset :=
  match lhs, rhs with
  | some L, some R =>
    match L.bits, R.bits with
    | some l, some r =>
      if L.len ≠ R.len then (BITSET_LENGTH_ERR, some L, some R)
      else
        (BITSET_GOOD,
          some { L with bits := some (mapLoop (fun i x => x || r.getD i false) l 0 L.len) },
          some R)
    | _, _ => (BITSET_NULL_ERR, some L, some R)
  | _, _ => (BITSET_NULL_ERR, lhs, rhs)

/-- Embedding of bitset_xor (src/bitset.c lines 182-191). -/
def bitset_xor (lhs rhs : Option Bitset) : Nat × Option Bitset × Option Bitset :=
  match lhs, rhs with
  | some L, some R =>
    match L.bits, R.bits with
    | some l, some r =>
      if L.len ≠ R.len then (BITSET_LENGTH_ERR, some L, some R)
      else
        (BITSET_GOOD,
          some { L with bits := some (mapLoop (fun i x => xor x (r.getD i false)) l 0 L.len) },
          some R)
    | _, _ => (BITSET_NULL_ERR, some L, some R)
  | _, _ => (BITSET_NULL_ERR, lhs, rhs)

/-- Embedding of bitset_not (src/bitset.c lines 200-207). -/
def bitset_not (b : Option Bitset) : Nat × Option Bitset :=
  match b with
  | none => (BITSET_NULL_ERR, none)
  | some s =>
    match s.bits with
    | none => (BITSET_NULL_ERR, some s)
    | some l =>
      (BITSET_GOOD, some { s with bits := some (mapLoop (fun _ x => !x) l 0 s.len) })

/-- Embedding of bitset_lsh (src/bitset.c lines 217-231): memmove the
cells [n, len) down to offset 0, then memset the top n cells to 0; when
n is at least len, memset the whole buffer. -/
def bitset_lsh (b : Option Bitset) (n : Nat) : Nat × Option Bitset :=
  match b with
  | none => (BITSET_NULL_ERR, none)
  | some s =>
    match s.bits with
    | none => (BITSET_NULL_ERR, some s)
    | some l =>
      if n = 0 then (BITSET_GOOD, some s)
      else if n ≥ s.len then
        (BITSET_GOOD, some { s with bits := some (memwrite l 0 (List.replicate s.len false)) })
      else
        let moved := memwrite l 0 ((l.drop n).take (s.len - n))
        (BITSET_GOOD, some { s with bits := some (memwrite moved (s.len - n) (List.replicate n false)) })

/-- Embedding of bitset_rsh (src/bitset.c lines 241-256): memmove the
cells [0, len - n) up to offset n, then memset the bottom n cells to 0. -/
def bitset_rsh (b : Option Bitset) (n : Nat) : Nat × Option Bitset :=
  match b with
  | none => (BITSET_NULL_ERR, none)
  | some s =>
    match s.bits with
    | none => (BITSET_NULL_ERR, some s)
    | some l =>
      if n = 0 then (BITSET_GOOD, some s)
      else if n ≥ s.len then
        (BITSET_GOOD, some { s with bits := some (memwrite l 0 (List.replicate s.len false)) })
      else
        let moved := memwrite l n (l.take (s.len - n))
        (BITSET_GOOD, some { s with bits := some (memwrite moved 0 (List.replicate n false)) })

/-- Embedding of bitset_lrot (src/bitset.c lines 266-284): when the
effective amount n mod len is nonzero, copy the head [0, n mod len) to a
scratch buffer, memmove the rest down, and memcpy the scratch to the
tail; the alloc flag tells whether the scratch malloc succeeds. -/
def bitset_lrot (b : Option Bitset) (n : Nat) (alloc : Bool) : Nat × Option Bitset :=
  match b with
  | none => (BITSET_NULL_ERR, none)
  | some s =>
    match s.bits with
    | none => (BITSET_NULL_ERR, some s)
    | some l =>
      if n % s.len = 0 then (BITSET_GOOD, some s)
      else if alloc then
        let temp := l.take (n % s.len)
        let moved := memwrite l 0 ((l.drop (n % s.len)).take (s.len - n % s.len))
        (BITSET_GOOD, some { s with bits := some (memwrite moved (s.len - n % s.len) temp) })
      else (BITSET_ALLOC_ERR, some s)

/-- Embedding of bitset_rrot (src/bitset.c lines 294-312): when the
effective amount n mod len is nonzero, copy the tail [len - n mod len,
len) to a scratch buffer, memmove the rest up, and memcpy the scratch to
the head. -/
def bitset_rrot (b : Option Bitset) (n : Nat) (alloc : Bool) : Nat × Option Bitset :=
  match b with
  | none => (BITSET_NULL_ERR, none)
  | some s =>
    match s.bits with
    | none => (BITSET_NULL_ERR, some s)
    | some l =>
      if n % s.len = 0 then (BITSET_GOOD, some s)
      else if alloc then
        let temp := (l.drop (s.len - n % s.len)).take (n % s.len)
        let moved := memwrite l (n % s.len) (l.take (s.len - n % s.len))
        (BITSET_GOOD, some { s with bits := some (memwrite moved 0 temp) })
      else (BITSET_ALLOC_ERR, some s)

/-- Embedding of bitset_reset (src/bitset.c lines 318-322). -/
def bitset_reset (b : Option Bitset) : Option Bitset :=
  match b with
  | none => none
  | some s =>
    match s.bits with
    | none => some s
    | some l => some { s with bits := some (mapLoop (fun _ _ => false) l 0 s.len) }

/-- Embedding of bitset_free (src/bitset.c lines 328-333): the buffer is
released and the pointer cleared; the length field is not touched. -/
def bitset_free (b : Option Bitset) : Option Bitset :=
  match b with
  | none => none
  | some s => some { s with bits := none }

/-- States of a bitset struct that arise through the public constructors
(called with a non-null handle, a non-null string and a nonzero size, the
cases in which the constructors write the struct) and are then closed
under the public mutating operations, with any right operand, shift or
rotate amount, and any allocation outcome. -/
inductive Reachable : Bitset → Prop where
  | init (s₀ : Bitset) (n : Nat) (alloc : Bool) (s : Bitset) (hn : n ≠ 0)
      (h : (bitset_init (some s₀) n alloc).2 = some s) : Reachable s
  | init_bstr (s₀ : Bitset) (cs : List Char) (n : Nat) (alloc : Bool) (s : Bitset)
      (hn : n ≠ 0)
      (h : (bitset_init_bstr (some s₀) (some cs) n alloc).2 = some s) : Reachable s
  | init_str (s₀ : Bitset) (cs : List Char) (n : Nat) (alloc : Bool) (s : Bitset)
      (hn : n ≠ 0)
      (h : (bitset_init_str (some s₀) (some cs) n alloc).2 = some s) : Reachable s
  | step_and (s₁ : Bitset) (rhs : Option Bitset) (s : Bitset) (hr : Reachable s₁)
      (h : (bitset_and (some s₁) rhs).2.1 = some s) : Reachable s
  | step_or (s₁ : Bitset) (rhs : Option Bitset) (s : Bitset) (hr : Reachable s₁)
      (h : (bitset_or (some s₁) rhs).2.1 = some s) : Reachable s
  | step_xor (s₁ : Bitset) (rhs : Option Bitset) (s : Bitset) (hr : Reachable s₁)
      (h : (bitset_xor (some s₁) rhs).2.1 = some s) : Reachable s
  | step_not (s₁ s : Bitset) (hr : Reachable s₁)
      (h : (bitset_not (some s₁)).2 = some s) : Reachable s
  | step_lsh (s₁ s : Bitset) (n : Nat) (hr : Reachable s₁)
      (h : (bitset_lsh (some s₁) n).2 = some s) : Reachable s
  | step_rsh (s₁ s : Bitset) (n : Nat) (hr : Reachable s₁)
      (h : (bitset_rsh (some s₁) n).2 = some s) : Reachable s
  | step_lrot (s₁ s : Bitset) (n : Nat) (alloc : Bool) (hr : Reachable s₁)
      (h : (bitset_lrot (some s₁) n alloc).2 = some s) : Reachable s
  | step_rrot (s₁ s : Bitset) (n : Nat) (alloc : Bool) (hr : Reachable s₁)
      (h : (bitset_rrot (some s₁) n alloc).2 = some s) : Reachable s
  | step_reset (s₁ s : Bitset) (hr : Reachable s₁)
      (h : bitset_reset (some s₁) = some s) : Reachable s
  | step_free (s₁ s : Bitset) (hr : Reachable s₁)
      (h : bitset_free (some s₁) = some s) : Reachable s

/-! Supporting lemmas about the memory-model helpers. -/

theorem memwrite_length {dst src : List Bool} {off : Nat}
    (h : off + src.length ≤ dst.length) :
    (memwrite dst off src).length = dst.length := by
  simp only [memwrite, List.length_append, List.length_take, List.length_drop]
  omega

theorem memwrite_getElem? {dst src : List Bool} {off : Nat}
    (h : off + src.length ≤ dst.length) (j : Nat) :
    (memwrite dst off src)[j]? =
      if j < off then dst[j]?
      else if j < off + src.length then src[j - off]?
      else dst[j]? := by
  have h1 : (List.take off dst).length = off := by
    simp only [List.length_take]
    omega
  rw [memwrite, List.append_assoc, List.getElem?_append, h1]
  by_cases hj1 : j < off
  · rw [if_pos hj1, if_pos hj1, List.getElem?_take, if_pos hj1]
  · rw [if_neg hj1, if_neg hj1, List.getElem?_append]
    by_cases hj2 : j - off < src.length
    · rw [if_pos hj2, if_pos (by omega)]
    · rw [if_neg hj2, if_neg (by omega), List.getElem?_drop]
      congr 1
      omega

theorem mapLoop_length (g : Nat → Bool → Bool) (fuel : Nat) :
    ∀ (start : Nat) (l : List Bool), (mapLoop g l start fuel).length = l.length := by
  induction fuel with
  | zero => intro start l; rfl
  | succ f ih =>
    intro start l
    simp only [mapLoop]
    rw [ih]
    exact l.length_set start _

theorem mapLoop_getElem? (g : Nat → Bool → Bool) (fuel : Nat) :
    ∀ (start : Nat) (l : List Bool) (j : Nat),
      (mapLoop g l start fuel)[j]? =
        if start ≤ j ∧ j < start + fuel ∧ j < l.length then
          some (g j (l.getD j false))
        else l[j]? := by
  induction fuel with
  | zero =>
    intro start l j
    rw [if_neg (by omega)]
    rfl
  | succ f ih =>
    intro start l j
    simp only [mapLoop]
    rw [ih, List.length_set]
    by_cases hj : start + 1 ≤ j ∧ j < start + 1 + f ∧ j < l.length
    · rw [if_pos hj, if_pos (by omega)]
      have hne : start ≠ j := by omega
      simp only [List.getD_eq_getElem?_getD, List.getElem?_set_ne hne]
    · rw [if_neg hj]
      by_cases hj2 : j = start ∧ j < l.length
      · obtain ⟨rfl, hlt⟩ := hj2
        rw [List.getElem?_set_self hlt, if_pos ⟨le_refl j, by omega, hlt⟩]
      · rw [if_neg (by omega), List.getElem?_set]
        by_cases hj3 : start = j
        · subst hj3
          rw [if_pos rfl, if_neg (by omega), List.getElem?_eq_none (by omega)]
        · rw [if_neg hj3]

theorem mapLoop_eq_map (g : Bool → Bool) (l : List Bool) :
    mapLoop (fun _ x => g x) l 0 l.length = l.map g := by
  apply List.ext_getElem?
  intro j
  rw [mapLoop_getElem?, List.getElem?_map]
  by_cases hj : j < l.length
  · rw [if_pos ⟨Nat.zero_le j, by omega, hj⟩, List.getD_eq_getElem?_getD,
      List.getElem?_eq_getElem hj]
    rfl
  · rw [if_neg (by omega), List.getElem?_eq_none (by omega)]
    rfl

theorem mapLoop_eq_zipWith (g : Bool → Bool → Bool) (l r : List Bool)
    (h : r.length = l.length) :
    mapLoop (fun i x => g x (r.getD i false)) l 0 l.length = List.zipWith g l r := by
  apply List.ext_getElem?
  intro j
  rw [mapLoop_getElem?, List.getElem?_zipWith]
  by_cases hj : j < l.length
  · rw [if_pos ⟨Nat.zero_le j, by omega, hj⟩, List.getElem?_eq_getElem hj,
      List.getElem?_eq_getElem (h ▸ hj : j < r.length)]
    rw [List.getD_eq_getElem?_getD, List.getD_eq_getElem?_getD,
      List.getElem?_eq_getElem hj, List.getElem?_eq_getElem (h ▸ hj : j < r.length)]
    rfl
  · rw [if_neg (by omega), List.getElem?_eq_none (show l.length ≤ j by omega),
      List.getElem?_eq_none (show r.length ≤ j by omega)]

theorem mapLoop_eq_replicate (l : List Bool) :
    mapLoop (fun _ _ => false) l 0 l.length = List.replicate l.length false := by
  apply List.ext_getElem?
  intro j
  rw [mapLoop_getElem?, List.getElem?_replicate]
  by_cases hj : j < l.length
  · rw [if_pos ⟨Nat.zero_le j, by omega, hj⟩, if_pos hj]
  · rw [if_neg (by omega), if_neg hj, List.getElem?_eq_none (by omega)]

/-! Closed forms for the memmove/memset sequences of the shift and
rotate operations, on a buffer whose length matches the length field. -/

theorem memwrite_inner_low {l : List Bool} {len n : Nat} (h : l.length = len) :
    memwrite l 0 ((l.drop n).take (len - n)) = l.drop n ++ l.drop (len - n) := by
  have hd : (l.drop n).take (len - n) = l.drop n :=
    List.take_of_length_le (by simp [h])
  rw [memwrite, hd]
  simp [h]

theorem memwrite_inner_high {l : List Bool} {len n : Nat} (h : l.length = len)
    (h2 : n < len) :
    memwrite l n (l.take (len - n)) = l.take n ++ l.take (len - n) := by
  have hlen : (l.take (len - n)).length = len - n := by simp [h]
  rw [memwrite, hlen]
  have h3 : n + (len - n) = len := by omega
  rw [h3, ← h, List.drop_length, List.append_nil]

theorem lsh_bits {l : List Bool} {len n : Nat} (h : l.length = len)
    (h2 : n < len) :
    memwrite (memwrite l 0 ((l.drop n).take (len - n))) (len - n)
        (List.replicate n false) =
      l.drop n ++ List.replicate n false := by
  rw [memwrite_inner_low h, memwrite]
  have hA : (l.drop n).length = len - n := by simp [h]
  have hB : (l.drop (len - n)).length = n := by simp [h]; omega
  rw [List.take_left' hA, List.length_replicate]
  have hdrop : (l.drop n ++ l.drop (len - n)).drop (len - n + n) = [] :=
    List.drop_eq_nil_of_le (by simp [h]; omega)
  rw [hdrop, List.append_nil]

theorem rsh_bits {l : List Bool} {len n : Nat} (h : l.length = len)
    (h2 : n < len) :
    memwrite (memwrite l n (l.take (len - n))) 0 (List.replicate n false) =
      List.replicate n false ++ l.take (len - n) := by
  rw [memwrite_inner_high h h2, memwrite]
  have hA : (l.take n).length = n := by simp [h]; omega
  rw [List.take_zero, List.length_replicate, Nat.zero_add,
    List.drop_left' hA, List.nil_append]

theorem lrot_bits {l : List Bool} {len m : Nat} (h : l.length = len)
    (h2 : m < len) :
    memwrite (memwrite l 0 ((l.drop m).take (len - m))) (len - m) (l.take m) =
      l.drop m ++ l.take m := by
  rw [memwrite_inner_low h, memwrite]
  have hA : (l.drop m).length = len - m := by simp [h]
  have hT : (l.take m).length = m := by simp [h]; omega
  rw [List.take_left' hA, hT]
  have hdrop : (l.drop m ++ l.drop (len - m)).drop (len - m + m) = [] :=
    List.drop_eq_nil_of_le (by simp [h]; omega)
  rw [hdrop, List.append_nil]

theorem rrot_bits {l : List Bool} {len m : Nat} (h : l.length = len)
    (h2 : m < len) :
    memwrite (memwrite l m (l.take (len - m))) 0 ((l.drop (len - m)).take m) =
      l.drop (len - m) ++ l.take (len - m) := by
  rw [memwrite_inner_high h h2, memwrite]
  have hA : (l.take m).length = m := by simp [h]; omega
  have hT : (l.drop (len - m)).take m = l.drop (len - m) :=
    List.take_of_length_le (by simp [h]; omega)
  rw [hT]
  have hTl : (l.drop (len - m)).length = m := by simp [h]; omega
  rw [List.take_zero, hTl, Nat.zero_add, List.drop_left' hA, List.nil_append]

theorem memwrite_all_zero {l : List Bool} {len : Nat} (h : l.length = len) :
    memwrite l 0 (List.replicate len false) = List.replicate len false := by
  rw [memwrite, List.take_zero, List.length_replicate, Nat.zero_add, ← h,
    List.drop_length, List.append_nil, List.nil_append]

/-! Characterisation of the character-expansion loop. -/

theorem bfc_loop_length : ∀ (b : Nat) (bits : List Bool) (c : Nat),
    (bfc_loop bits c b).length = bits.length := by
  intro b
  induction b with
  | zero => intro bits c; exact bits.length_set 0 _
  | succ b ih =>
    intro bits c
    simp only [bfc_loop]
    by_cases hrec : c / 2 > 0
    · rw [if_pos hrec, ih, List.length_set]
    · rw [if_neg hrec, List.length_set]

theorem bfc_loop_getElem? : ∀ (b : Nat) (bits : List Bool) (c : Nat),
    b < bits.length → (∀ p, p ≤ b → bits[p]? = some false) → c < 2 ^ (b + 1) →
    ∀ j, (bfc_loop bits c b)[j]? =
      if j ≤ b then some (c.testBit (b - j)) else bits[j]? := by
  intro b
  induction b with
  | zero =>
    intro bits c hb hzero hc j
    simp only [bfc_loop]
    by_cases hj : j ≤ 0
    · have hj0 : j = 0 := by omega
      subst hj0
      rw [if_pos (le_refl 0), List.getElem?_set_self hb, Nat.sub_self, Nat.testBit_zero]
    · rw [if_neg hj, List.getElem?_set_ne (by omega)]
  | succ b ih =>
    intro bits c hb hzero hc j
    simp only [bfc_loop]
    by_cases hrec : c / 2 > 0
    · rw [if_pos hrec]
      have hc2 : c / 2 < 2 ^ (b + 1) := by
        rw [Nat.div_lt_iff_lt_mul (by norm_num), ← pow_succ]
        exact hc
      rw [ih (bits.set (b + 1) (decide (c % 2 = 1))) (c / 2)
        (by rw [List.length_set]; omega)
        (fun p hp => by
          rw [List.getElem?_set_ne (by omega)]
          exact hzero p (by omega))
        hc2]
      by_cases hj : j ≤ b
      · rw [if_pos hj, if_pos (by omega), Nat.testBit_div_two,
          show b - j + 1 = b + 1 - j by omega]
      · rw [if_neg hj]
        by_cases hj2 : j = b + 1
        · subst hj2
          rw [List.getElem?_set_self hb, if_pos (le_refl _), Nat.sub_self, Nat.testBit_zero]
        · rw [List.getElem?_set_ne (by omega), if_neg (by omega)]
    · rw [if_neg hrec]
      by_cases hj2 : j = b + 1
      · subst hj2
        rw [List.getElem?_set_self hb, if_pos (le_refl _), Nat.sub_self, Nat.testBit_zero]
      · by_cases hj : j ≤ b
        · rw [List.getElem?_set_ne (by omega), if_pos (by omega), hzero j (by omega)]
          have hbit : c.testBit (b + 1 - j) = false := by
            apply Nat.testBit_lt_two_pow
            calc c < 2 ^ 1 := by omega
            _ ≤ 2 ^ (b + 1 - j) := Nat.pow_le_pow_right (by norm_num) (by omega)
          rw [hbit]
        · rw [List.getElem?_set_ne (by omega), if_neg (by omega)]

theorem bits_from_char_length (c : Nat) : (bits_from_char c).length = CHAR_LEN := by
  rw [bits_from_char, bfc_loop_length, List.length_replicate]

theorem bits_from_char_getElem? {c : Nat} (hc : c < 256) (j : Nat) :
    (bits_from_char c)[j]? =
      if j < CHAR_LEN then some (c.testBit (CHAR_LEN - 1 - j)) else none := by
  rw [bits_from_char]
  rw [bfc_loop_getElem? (CHAR_LEN - 1) (List.replicate CHAR_LEN false) c
    (by simp [CHAR_LEN])
    (fun p hp => by
      rw [List.getElem?_replicate, if_pos (by simp [CHAR_LEN] at hp ⊢; omega)])
    (by simp only [CHAR_LEN]; norm_num; omega)]
  by_cases hj : j < CHAR_LEN
  · rw [if_pos (by simp [CHAR_LEN] at hj ⊢; omega), if_pos hj]
  · rw [if_neg (by simp [CHAR_LEN] at hj ⊢; omega), if_neg hj, List.getElem?_replicate,
      if_neg hj]

/-! Characterisation of the two constructor fill loops. -/

theorem bstr_loop_length (str : List Char) : ∀ (fuel start : Nat) (bits : List Bool),
    (bstr_loop bits str start fuel).length = bits.length := by
  intro fuel
  induction fuel with
  | zero => intro start bits; rfl
  | succ f ih =>
    intro start bits
    simp only [bstr_loop]
    split
    · rfl
    · split
      · rfl
      · rw [ih, List.length_set]

theorem bstr_loop_getElem? (str : List Char) (hstr : Char.ofNat 0 ∉ str) :
    ∀ (fuel start : Nat) (bits : List Bool) (j : Nat),
      (bstr_loop bits str start fuel)[j]? =
        if start ≤ j ∧ j < start + fuel ∧ j < str.length ∧ j < bits.length then
          some (if str.getD j (Char.ofNat 0) = '1' then true else false)
        else bits[j]? := by
  intro fuel
  induction fuel with
  | zero =>
    intro start bits j
    rw [if_neg (by omega)]
    rfl
  | succ f ih =>
    intro start bits j
    simp only [bstr_loop]
    split
    · rename_i hsc
      have hlen : str.length ≤ start := List.getElem?_eq_none_iff.mp hsc
      rw [if_neg (show ¬(start ≤ j ∧ j < start + (f + 1) ∧ j < str.length ∧ j < bits.length)
        by omega)]
    · rename_i c hsc
      obtain ⟨hlt, hget⟩ := List.getElem?_eq_some.mp hsc
      have hmem : c ∈ str := hget ▸ List.getElem_mem hlt
      have hcz : ¬c = Char.ofNat 0 := fun h => hstr (h ▸ hmem)
      rw [if_neg hcz, ih, List.length_set]
      by_cases hj : start + 1 ≤ j ∧ j < start + 1 + f ∧ j < str.length ∧ j < bits.length
      · rw [if_pos hj, if_pos (show start ≤ j ∧ j < start + (f + 1) ∧ j < str.length ∧
          j < bits.length by omega)]
      · rw [if_neg hj]
        by_cases hj2 : j = start ∧ j < bits.length
        · obtain ⟨rfl, hblt⟩ := hj2
          rw [List.getElem?_set_self hblt, if_pos (show j ≤ j ∧ j < j + (f + 1) ∧
            j < str.length ∧ j < bits.length from ⟨le_refl j, by omega, hlt, hblt⟩),
            List.getD_eq_getElem?_getD, hsc, Option.getD_some]
        · rw [List.getElem?_set]
          by_cases hj3 : start = j
          · subst hj3
            rw [if_pos rfl, if_neg (show ¬start < bits.length by omega),
              if_neg (show ¬(start ≤ start ∧ start < start + (f + 1) ∧ start < str.length ∧
                start < bits.length) by omega),
              List.getElem?_eq_none (show bits.length ≤ start by omega)]
          · rw [if_neg hj3, if_neg (show ¬(start ≤ j ∧ j < start + (f + 1) ∧ j < str.length ∧
              j < bits.length) by omega)]

theorem str_loop_length (str : List Char) : ∀ (fuel start : Nat) (bits : List Bool),
    (start + fuel) * CHAR_LEN ≤ bits.length →
    (str_loop bits str start fuel).length = bits.length := by
  intro fuel
  induction fuel with
  | zero => intro start bits _; rfl
  | succ f ih =>
    intro start bits hb
    simp only [str_loop]
    split
    · rfl
    · split
      · rfl
      · rename_i c hsc hcz
        have hw : start * CHAR_LEN + (bits_from_char (c.toNat % 256)).length ≤ bits.length := by
          rw [bits_from_char_length]
          simp only [CHAR_LEN] at hb ⊢
          omega
        rw [ih, memwrite_length hw]
        rw [memwrite_length hw]
        simp only [CHAR_LEN] at hb ⊢
        omega

theorem str_loop_getElem? (str : List Char) (hstr : Char.ofNat 0 ∉ str) :
    ∀ (fuel start : Nat) (bits : List Bool), (start + fuel) * CHAR_LEN ≤ bits.length →
      ∀ j, (str_loop bits str start fuel)[j]? =
        if start * CHAR_LEN ≤ j ∧ j < (min (start + fuel) str.length) * CHAR_LEN then
          some (((str.getD (j / CHAR_LEN) (Char.ofNat 0)).toNat % 256).testBit
            (CHAR_LEN - 1 - j % CHAR_LEN))
        else bits[j]? := by
  intro fuel
  induction fuel with
  | zero =>
    intro start bits hb j
    rw [if_neg (show ¬(start * CHAR_LEN ≤ j ∧
      j < (min (start + 0) str.length) * CHAR_LEN) by simp only [CHAR_LEN]; omega)]
    rfl
  | succ f ih =>
    intro start bits hb j
    simp only [str_loop]
    split
    · rename_i hsc
      have hlen : str.length ≤ start := List.getElem?_eq_none_iff.mp hsc
      rw [if_neg (show ¬(start * CHAR_LEN ≤ j ∧
        j < (min (start + (f + 1)) str.length) * CHAR_LEN) by simp only [CHAR_LEN]; omega)]
    · rename_i c hsc
      obtain ⟨hlt, hget⟩ := List.getElem?_eq_some.mp hsc
      have hmem : c ∈ str := hget ▸ List.getElem_mem hlt
      have hcz : ¬c = Char.ofNat 0 := fun h => hstr (h ▸ hmem)
      rw [if_neg hcz]
      have hW : (bits_from_char (c.toNat % 256)).length = CHAR_LEN :=
        bits_from_char_length _
      have hwb : start * CHAR_LEN + (bits_from_char (c.toNat % 256)).length ≤ bits.length := by
        rw [hW]
        simp only [CHAR_LEN] at hb ⊢
        omega
      have hlen2 :
          (memwrite bits (start * CHAR_LEN) (bits_from_char (c.toNat % 256))).length =
            bits.length :=
        memwrite_length hwb
      rw [ih (start + 1) _ (by rw [hlen2]; simp only [CHAR_LEN] at hb ⊢; omega) j]
      by_cases hj : (start + 1) * CHAR_LEN ≤ j ∧
        j < (min (start + 1 + f) str.length) * CHAR_LEN
      · rw [if_pos hj, if_pos (show start * CHAR_LEN ≤ j ∧
          j < (min (start + (f + 1)) str.length) * CHAR_LEN by
            simp only [CHAR_LEN] at hj ⊢; omega)]
      · rw [if_neg hj]
        by_cases hj2 : start * CHAR_LEN ≤ j ∧ j < start * CHAR_LEN + CHAR_LEN
        · rw [if_pos (show start * CHAR_LEN ≤ j ∧
            j < (min (start + (f + 1)) str.length) * CHAR_LEN by
              simp only [CHAR_LEN] at hj2 ⊢; omega)]
          rw [memwrite_getElem? hwb j,
            if_neg (show ¬j < start * CHAR_LEN by omega),
            if_pos (show j < start * CHAR_LEN + (bits_from_char (c.toNat % 256)).length by
              rw [hW]; omega),
            bits_from_char_getElem? (Nat.mod_lt _ (by norm_num)),
            if_pos (show j - start * CHAR_LEN < CHAR_LEN by omega)]
          have hdiv : j / CHAR_LEN = start := by simp only [CHAR_LEN] at hj2 ⊢; omega
          have hmod : CHAR_LEN - 1 - j % CHAR_LEN = CHAR_LEN - 1 - (j - start * CHAR_LEN) := by
            simp only [CHAR_LEN] at hj2 ⊢
            omega
          rw [hdiv, hmod, List.getD_eq_getElem?_getD, hsc, Option.getD_some]
        · rw [if_neg (show ¬(start * CHAR_LEN ≤ j ∧
            j < (min (start + (f + 1)) str.length) * CHAR_LEN) by
              simp only [CHAR_LEN] at hj hj2 ⊢; omega)]
          rw [memwrite_getElem? hwb j]
          by_cases hj4 : j < start * CHAR_LEN
          · rw [if_pos hj4]
          · rw [if_neg hj4, if_neg (show ¬j < start * CHAR_LEN +
              (bits_from_char (c.toNat % 256)).length by
                rw [hW]; simp only [CHAR_LEN] at hj hj2 hj4 ⊢; omega)]

/-! Length-field preservation of every in-place operation. -/

theorem bitset_and_len {s₁ : Bitset} {rhs : Option Bitset} {s : Bitset}
    (h : (bitset_and (some s₁) rhs).2.1 = some s) : s.len = s₁.len := by
  obtain ⟨b₁, len₁⟩ := s₁
  rcases rhs with _ | ⟨b₂, len₂⟩
  · simp only [bitset_and] at h
    cases h
    rfl
  · rcases b₁ with _ | l
    · simp only [bitset_and] at h
      cases h
      rfl
    · rcases b₂ with _ | r
      · simp only [bitset_and] at h
        cases h
        rfl
      · simp only [bitset_and] at h
        by_cases hlen : (len₁ : Nat) ≠ len₂
        · rw [if_pos hlen] at h
          cases h
          rfl
        · rw [if_neg hlen] at h
          cases h
          rfl

theorem bitset_or_len {s₁ : Bitset} {rhs : Option Bitset} {s : Bitset}
    (h : (bitset_or (some s₁) rhs).2.1 = some s) : s.len = s₁.len := by
  obtain ⟨b₁, len₁⟩ := s₁
  rcases rhs with _ | ⟨b₂, len₂⟩
  · simp only [bitset_or] at h
    cases h
    rfl
  · rcases b₁ with _ | l
    · simp only [bitset_or] at h
      cases h
      rfl
    · rcases b₂ with _ | r
      · simp only [bitset_or] at h
        cases h
        rfl
      · simp only [bitset_or] at h
        by_cases hlen : (len₁ : Nat) ≠ len₂
        · rw [if_pos hlen] at h
          cases h
          rfl
        · rw [if_neg hlen] at h
          cases h
          rfl

theorem bitset_xor_len {s₁ : Bitset} {rhs : Option Bitset} {s : Bitset}
    (h : (bitset_xor (some s₁) rhs).2.1 = some s) : s.len = s₁.len := by
  obtain ⟨b₁, len₁⟩ := s₁
  rcases rhs with _ | ⟨b₂, len₂⟩
  · simp only [bitset_xor] at h
    cases h
    rfl
  · rcases b₁ with _ | l
    · simp only [bitset_xor] at h
      cases h
      rfl
    · rcases b₂ with _ | r
      · simp only [bitset_xor] at h
        cases h
        rfl
      · simp only [bitset_xor] at h
        by_cases hlen : (len₁ : Nat) ≠ len₂
        · rw [if_pos hlen] at h
          cases h
          rfl
        · rw [if_neg hlen] at h
          cases h
          rfl

theorem bitset_not_len {s₁ s : Bitset}
    (h : (bitset_not (some s₁)).2 = some s) : s.len = s₁.len := by
  obtain ⟨b₁, len₁⟩ := s₁
  rcases b₁ with _ | l
  · simp only [bitset_not] at h
    cases h
    rfl
  · simp only [bitset_not] at h
    cases h
    rfl

theorem bitset_lsh_len {s₁ s : Bitset} {n : Nat}
    (h : (bitset_lsh (some s₁) n).2 = some s) : s.len = s₁.len := by
  obtain ⟨b₁, len₁⟩ := s₁
  rcases b₁ with _ | l
  · simp only [bitset_lsh] at h
    cases h
    rfl
  · simp only [bitset_lsh] at h
    by_cases h0 : n = 0
    · rw [if_pos h0] at h
      cases h
      rfl
    · rw [if_neg h0] at h
      by_cases h1 : n ≥ len₁
      · rw [if_pos h1] at h
        cases h
        rfl
      · rw [if_neg h1] at h
        cases h
        rfl

theorem bitset_rsh_len {s₁ s : Bitset} {n : Nat}
    (h : (bitset_rsh (some s₁) n).2 = some s) : s.len = s₁.len := by
  obtain ⟨b₁, len₁⟩ := s₁
  rcases b₁ with _ | l
  · simp only [bitset_rsh] at h
    cases h
    rfl
  · simp only [bitset_rsh] at h
    by_cases h0 : n = 0
    · rw [if_pos h0] at h
      cases h
      rfl
    · rw [if_neg h0] at h
      by_cases h1 : n ≥ len₁
      · rw [if_pos h1] at h
        cases h
        rfl
      · rw [if_neg h1] at h
        cases h
        rfl

theorem bitset_lrot_len {s₁ s : Bitset} {n : Nat} {alloc : Bool}
    (h : (bitset_lrot (some s₁) n alloc).2 = some s) : s.len = s₁.len := by
  obtain ⟨b₁, len₁⟩ := s₁
  rcases b₁ with _ | l
  · simp only [bitset_lrot] at h
    cases h
    rfl
  · simp only [bitset_lrot] at h
    by_cases h0 : n % len₁ = 0
    · rw [if_pos h0] at h
      cases h
      rfl
    · rw [if_neg h0] at h
      by_cases ha : alloc = true
      · rw [if_pos ha] at h
        cases h
        rfl
      · rw [if_neg ha] at h
        cases h
        rfl

theorem bitset_rrot_len {s₁ s : Bitset} {n : Nat} {alloc : Bool}
    (h : (bitset_rrot (some s₁) n alloc).2 = some s) : s.len = s₁.len := by
  obtain ⟨b₁, len₁⟩ := s₁
  rcases b₁ with _ | l
  · simp only [bitset_rrot] at h
    cases h
    rfl
  · simp only [bitset_rrot] at h
    by_cases h0 : n % len₁ = 0
    · rw [if_pos h0] at h
      cases h
      rfl
    · rw [if_neg h0] at h
      by_cases ha : alloc = true
      · rw [if_pos ha] at h
        cases h
        rfl
      · rw [if_neg ha] at h
        cases h
        rfl

theorem bitset_reset_len {s₁ s : Bitset}
    (h : bitset_reset (some s₁) = some s) : s.len = s₁.len := by
  obtain ⟨b₁, len₁⟩ := s₁
  rcases b₁ with _ | l
  · simp only [bitset_reset] at h
    cases h
    rfl
  · simp only [bitset_reset] at h
    cases h
    rfl

theorem bitset_free_len {s₁ s : Bitset}
    (h : bitset_free (some s₁) = some s) : s.len = s₁.len := by
  simp only [bitset_free] at h
  cases h
  rfl

/-- Every reachable struct state records a positive length: the
constructors only run with n nonzero (writing n or n * CHAR_LEN into the
length field, on success and on allocation failure alike) and no
operation ever writes the length field. -/
theorem Reachable.len_pos {s : Bitset} (h : Reachable s) : 0 < s.len := by
  induction h with
  | init s₀ n alloc s hn h =>
    simp only [bitset_init] at h
    rw [if_neg hn] at h
    by_cases ha : alloc = true
    · rw [if_pos ha] at h
      cases h
      exact Nat.pos_of_ne_zero hn
    · rw [if_neg ha] at h
      cases h
      exact Nat.pos_of_ne_zero hn
  | init_bstr s₀ cs n alloc s hn h =>
    simp only [bitset_init_bstr] at h
    rw [if_neg hn] at h
    by_cases ha : alloc = true
    · rw [if_pos ha] at h
      cases h
      exact Nat.pos_of_ne_zero hn
    · rw [if_neg ha] at h
      cases h
      exact Nat.pos_of_ne_zero hn
  | init_str s₀ cs n alloc s hn h =>
    simp only [bitset_init_str] at h
    rw [if_neg hn] at h
    by_cases ha : alloc = true
    · rw [if_pos ha] at h
      cases h
      exact Nat.mul_pos (Nat.pos_of_ne_zero hn) (by norm_num [CHAR_LEN])
    · rw [if_neg ha] at h
      cases h
      exact Nat.mul_pos (Nat.pos_of_ne_zero hn) (by norm_num [CHAR_LEN])
  | step_and s₁ rhs s hr h ih => rw [bitset_and_len h]; exact ih
  | step_or s₁ rhs s hr h ih => rw [bitset_or_len h]; exact ih
  | step_xor s₁ rhs s hr h ih => rw [bitset_xor_len h]; exact ih
  | step_not s₁ s hr h ih => rw [bitset_not_len h]; exact ih
  | step_lsh s₁ s n hr h ih => rw [bitset_lsh_len h]; exact ih
  | step_rsh s₁ s n hr h ih => rw [bitset_rsh_len h]; exact ih
  | step_lrot s₁ s n alloc hr h ih => rw [bitset_lrot_len h]; exact ih
  | step_rrot s₁ s n alloc hr h ih => rw [bitset_rrot_len h]; exact ih
  | step_reset s₁ s hr h ih => rw [bitset_reset_len h]; exact ih
  | step_free s₁ s hr h ih => rw [bitset_free_len h]; exact ih

/-! Closed forms of the rotate operations on an initialized bitset whose
buffer length matches its length field. -/

theorem bitset_lrot_mod_zero {s : Bitset} {l : List Bool} (n : Nat) (alloc : Bool)
    (hb : s.bits = some l) (hm : n % s.len = 0) :
    bitset_lrot (some s) n alloc = (BITSET_GOOD, some s) := by
  simp only [bitset_lrot, hb]
  rw [if_pos hm]

theorem bitset_rrot_mod_zero {s : Bitset} {l : List Bool} (n : Nat) (alloc : Bool)
    (hb : s.bits = some l) (hm : n % s.len = 0) :
    bitset_rrot (some s) n alloc = (BITSET_GOOD, some s) := by
  simp only [bitset_rrot, hb]
  rw [if_pos hm]

theorem bitset_lrot_eq {s : Bitset} {l : List Bool} (n : Nat)
    (hb : s.bits = some l) (hl : l.length = s.len) (h0 : 0 < s.len)
    (hm : n % s.len ≠ 0) :
    bitset_lrot (some s) n true =
      (BITSET_GOOD,
        some { s with bits := some (l.drop (n % s.len) ++ l.take (n % s.len)) }) := by
  simp only [bitset_lrot, hb]
  rw [if_neg hm, if_true, lrot_bits hl (Nat.mod_lt n h0)]

theorem bitset_rrot_eq {s : Bitset} {l : List Bool} (n : Nat)
    (hb : s.bits = some l) (hl : l.length = s.len) (h0 : 0 < s.len)
    (hm : n % s.len ≠ 0) :
    bitset_rrot (some s) n true =
      (BITSET_GOOD,
        some { s with bits := some (l.drop (s.len - n % s.len) ++ l.take (s.len - n % s.len)) }) := by
  simp only [bitset_rrot, hb]
  rw [if_neg hm, if_true, rrot_bits hl (Nat.mod_lt n h0)]

/-- Claim C4: if the scratch allocation inside bitset_lrot or bitset_rrot
fails, the call returns AllocationError (status code 2) and the bitset is
left bit-for-bit unchanged: the returned struct is exactly the input
struct, with every cell and the length field untouched. The hypothesis
restricts to rotations that reach the allocation, namely those whose
effective amount n mod len is nonzero. -/
theorem C4_rot_alloc_failure (s : Bitset) (l : List Bool) (n : Nat)
    (hb : s.bits = some l) (hm : n % s.len ≠ 0) :
    bitset_lrot (some s) n false = (BITSET_ALLOC_ERR, some s) ∧
    bitset_rrot (some s) n false = (BITSET_ALLOC_ERR, some s) := by
  constructor
  · simp only [bitset_lrot, hb]
    rw [if_neg hm]
    rfl
  · simp only [bitset_rrot, hb]
    rw [if_neg hm]
    rfl

theorem C4_rot_alloc_failure_witness :
    bitset_lrot (some ⟨some [true, false, true], 3⟩) 1 false =
      (BITSET_ALLOC_ERR, some ⟨some [true, false, true], 3⟩) ∧
    bitset_rrot (some ⟨some [true, false, true], 3⟩) 1 false =
      (BITSET_ALLOC_ERR, some ⟨some [true, false, true], 3⟩) :=
  C4_rot_alloc_failure ⟨some [true, false, true], 3⟩ [true, false, true] 1 rfl (by decide)

/-- Claim C5: on two initialized bitsets whose lengths differ, each of
bitset_and, bitset_or and bitset_xor returns LengthMismatch (status code
3) and leaves both operands unchanged: the returned left and right
states are exactly the input states, cells and lengths included. -/
theorem C5_length_mismatch (L R : Bitset) (lL lR : List Bool)
    (hL : L.bits = some lL) (hR : R.bits = some lR) (hne : L.len ≠ R.len) :
    bitset_and (some L) (some R) = (BITSET_LENGTH_ERR, some L, some R) ∧
    bitset_or (some L) (some R) = (BITSET_LENGTH_ERR, some L, some R) ∧
    bitset_xor (some L) (some R) = (BITSET_LENGTH_ERR, some L, some R) := by
  refine ⟨?_, ?_, ?_⟩
  · simp only [bitset_and, hL, hR]
    rw [if_pos hne]
  · simp only [bitset_or, hL, hR]
    rw [if_pos hne]
  · simp only [bitset_xor, hL, hR]
    rw [if_pos hne]

theorem C5_length_mismatch_witness :
    bitset_and (some ⟨some [true], 1⟩) (some ⟨some [false, false], 2⟩) =
      (BITSET_LENGTH_ERR, some ⟨some [true], 1⟩, some ⟨some [false, false], 2⟩) :=
  (C5_length_mismatch ⟨some [true], 1⟩ ⟨some [false, false], 2⟩ [true] [false, false]
    rfl rfl (by decide)).1

/-- Claim C9: none of the in-place operations bitset_and, bitset_or,
bitset_xor, bitset_not, bitset_lsh, bitset_rsh, bitset_lrot, bitset_rrot
and bitset_reset changes the length field of the bitset it mutates, on
any path (success, NullInput, LengthMismatch or AllocationError), for
any right operand, amount and allocation outcome. -/
theorem C9_len_never_changes (s s' : Bitset) (rhs : Option Bitset) (n : Nat)
    (alloc : Bool) :
    ((bitset_and (some s) rhs).2.1 = some s' → s'.len = s.len) ∧
    ((bitset_or (some s) rhs).2.1 = some s' → s'.len = s.len) ∧
    ((bitset_xor (some s) rhs).2.1 = some s' → s'.len = s.len) ∧
    ((bitset_not (some s)).2 = some s' → s'.len = s.len) ∧
    ((bitset_lsh (some s) n).2 = some s' → s'.len = s.len) ∧
    ((bitset_rsh (some s) n).2 = some s' → s'.len = s.len) ∧
    ((bitset_lrot (some s) n alloc).2 = some s' → s'.len = s.len) ∧
    ((bitset_rrot (some s) n alloc).2 = some s' → s'.len = s.len) ∧
    (bitset_reset (some s) = some s' → s'.len = s.len) :=
  ⟨fun h => bitset_and_len h, fun h => bitset_or_len h, fun h => bitset_xor_len h,
    fun h => bitset_not_len h, fun h => bitset_lsh_len h, fun h => bitset_rsh_len h,
    fun h => bitset_lrot_len h, fun h => bitset_rrot_len h, fun h => bitset_reset_len h⟩

theorem C9_len_never_changes_witness :
    (⟨some [false, false], 2⟩ : Bitset).len = (⟨some [true, false], 2⟩ : Bitset).len :=
  (C9_len_never_changes ⟨some [true, false], 2⟩ ⟨some [false, false], 2⟩
    (some ⟨some [false, true], 2⟩) 0 true).1 (by decide)

/-- Claim C10: when the allocation inside a constructor fails, the call
returns AllocationError (status code 2) but has already overwritten the
handle: the length field holds the requested length (n, or n * CHAR_LEN
for the byte-string constructor) and the buffer pointer is null, so the
pre-call struct contents are not preserved and the bitset is left in the
uninitialized state with the new length recorded. -/
theorem C10_init_alloc_failure (s : Bitset) (cs : List Char) (n : Nat) (hn : n ≠ 0) :
    bitset_init (some s) n false = (BITSET_ALLOC_ERR, some ⟨none, n⟩) ∧
    bitset_init_bstr (some s) (some cs) n false = (BITSET_ALLOC_ERR, some ⟨none, n⟩) ∧
    bitset_init_str (some s) (some cs) n false =
      (BITSET_ALLOC_ERR, some ⟨none, n * CHAR_LEN⟩) := by
  refine ⟨?_, ?_, ?_⟩
  · simp only [bitset_init]
    rw [if_neg hn]
    rfl
  · simp only [bitset_init_bstr]
    rw [if_neg hn]
    rfl
  · simp only [bitset_init_str]
    rw [if_neg hn]
    rfl

theorem C10_init_alloc_failure_witness :
    bitset_init (some ⟨some [true], 7⟩) 2 false = (BITSET_ALLOC_ERR, some ⟨none, 2⟩) ∧
    bitset_init_bstr (some ⟨some [true], 7⟩) (some ['x']) 2 false =
      (BITSET_ALLOC_ERR, some ⟨none, 2⟩) ∧
    bitset_init_str (some ⟨some [true], 7⟩) (some ['x']) 2 false =
      (BITSET_ALLOC_ERR, some ⟨none, 2 * CHAR_LEN⟩) :=
  C10_init_alloc_failure ⟨some [true], 7⟩ ['x'] 2 (by decide)

theorem with_bits_self {s : Bitset} {l : List Bool} (hb : s.bits = some l) :
    ({ s with bits := some l } : Bitset) = s := by
  cases s
  cases hb
  rfl

/-- Claim C1: on an initialized bitset whose buffer holds len cells, a
left rotation by n with effective amount k = n mod len is a no-op
returning success when k = 0 (whatever the allocation outcome, since no
scratch is requested), and otherwise, when the scratch allocation
succeeds, it moves the cells [0, k) to the tail while the cells [k, len)
slide down: the new buffer is drop k followed by take k, a permutation
of the original cell values with no cell discarded or zero-filled. -/
theorem C1_lrot_spec (s : Bitset) (l : List Bool) (n : Nat) (alloc : Bool)
    (hb : s.bits = some l) (hl : l.length = s.len) (h0 : 0 < s.len) :
    (n % s.len = 0 → bitset_lrot (some s) n alloc = (BITSET_GOOD, some s)) ∧
    (n % s.len ≠ 0 →
      bitset_lrot (some s) n true =
        (BITSET_GOOD,
          some { s with bits := some (l.drop (n % s.len) ++ l.take (n % s.len)) }) ∧
      (l.drop (n % s.len) ++ l.take (n % s.len)).Perm l) := by
  constructor
  · intro hm
    exact bitset_lrot_mod_zero n alloc hb hm
  · intro hm
    refine ⟨bitset_lrot_eq n hb hl h0 hm, ?_⟩
    have hp := @List.perm_append_comm Bool (l.drop (n % s.len)) (l.take (n % s.len))
    rw [List.take_append_drop] at hp
    exact hp

theorem C1_lrot_spec_witness :
    bitset_lrot (some ⟨some [true, true, false, false, false], 5⟩) 7 true =
      (BITSET_GOOD, some ⟨some [false, false, false, true, true], 5⟩) ∧
    bitset_lrot (some ⟨some [true, true, false, false, false], 5⟩) 10 true =
      (BITSET_GOOD, some ⟨some [true, true, false, false, false], 5⟩) := by
  constructor
  · exact ((C1_lrot_spec ⟨some [true, true, false, false, false], 5⟩
      [true, true, false, false, false] 7 true rfl rfl (by decide)).2 (by decide)).1
  · exact (C1_lrot_spec ⟨some [true, true, false, false, false], 5⟩
      [true, true, false, false, false] 10 true rfl rfl (by decide)).1 (by decide)

/-- Claim C2: on an initialized bitset whose buffer holds len cells,
bitset_lsh always returns success; amount 0 leaves the bitset unchanged,
an amount of at least len makes every cell false, and otherwise the
cells [n, len) move down to [0, len - n) with the vacated upper n cells
set to false; bitset_rsh is the mirror toward higher indices, with the
lower n cells zero-filled. -/
theorem C2_shift_spec (s : Bitset) (l : List Bool) (n : Nat)
    (hb : s.bits = some l) (hl : l.length = s.len) (h0 : 0 < s.len) :
    ((bitset_lsh (some s) n).1 = BITSET_GOOD ∧ (bitset_rsh (some s) n).1 = BITSET_GOOD) ∧
    (n = 0 → bitset_lsh (some s) n = (BITSET_GOOD, some s) ∧
      bitset_rsh (some s) n = (BITSET_GOOD, some s)) ∧
    (n ≥ s.len →
      bitset_lsh (some s) n =
        (BITSET_GOOD, some { s with bits := some (List.replicate s.len false) }) ∧
      bitset_rsh (some s) n =
        (BITSET_GOOD, some { s with bits := some (List.replicate s.len false) })) ∧
    (0 < n → n < s.len →
      bitset_lsh (some s) n =
        (BITSET_GOOD, some { s with bits := some (l.drop n ++ List.replicate n false) }) ∧
      bitset_rsh (some s) n =
        (BITSET_GOOD,
          some { s with bits := some (List.replicate n false ++ l.take (s.len - n)) })) := by
  refine ⟨⟨?_, ?_⟩, ?_, ?_, ?_⟩
  · simp only [bitset_lsh, hb]
    by_cases hn0 : n = 0
    · rw [if_pos hn0]
    · rw [if_neg hn0]
      by_cases hge : n ≥ s.len
      · rw [if_pos hge]
      · rw [if_neg hge]
  · simp only [bitset_rsh, hb]
    by_cases hn0 : n = 0
    · rw [if_pos hn0]
    · rw [if_neg hn0]
      by_cases hge : n ≥ s.len
      · rw [if_pos hge]
      · rw [if_neg hge]
  · intro hn0
    subst hn0
    constructor
    · simp only [bitset_lsh, hb]
      rw [if_true]
    · simp only [bitset_rsh, hb]
      rw [if_true]
  · intro hge
    have hn0 : ¬n = 0 := by omega
    constructor
    · simp only [bitset_lsh, hb]
      rw [if_neg hn0, if_pos hge, memwrite_all_zero hl]
    · simp only [bitset_rsh, hb]
      rw [if_neg hn0, if_pos hge, memwrite_all_zero hl]
  · intro h1 h2
    constructor
    · simp only [bitset_lsh, hb]
      rw [if_neg (show ¬n = 0 by omega), if_neg (show ¬n ≥ s.len by omega),
        lsh_bits hl h2]
    · simp only [bitset_rsh, hb]
      rw [if_neg (show ¬n = 0 by omega), if_neg (show ¬n ≥ s.len by omega),
        rsh_bits hl h2]

theorem C2_shift_spec_witness :
    bitset_lsh (some ⟨some [true, false, true, true], 4⟩) 1 =
      (BITSET_GOOD, some ⟨some [false, true, true, false], 4⟩) ∧
    bitset_rsh (some ⟨some [true, false, true, true], 4⟩) 5 =
      (BITSET_GOOD, some ⟨some [false, false, false, false], 4⟩) := by
  constructor
  · exact ((C2_shift_spec ⟨some [true, false, true, true], 4⟩ [true, false, true, true] 1
      rfl rfl (by decide)).2.2.2 (by decide) (by decide)).1
  · exact ((C2_shift_spec ⟨some [true, false, true, true], 4⟩ [true, false, true, true] 5
      rfl rfl (by decide)).2.2.1 (by decide)).2

/-- Claim C3: on an initialized bitset whose buffer holds len cells, a
left rotation by any amount k followed by a right rotation by the same k
(both succeeding, the scratch allocations being given success) restores
the original bit pattern exactly. -/
theorem C3_rot_roundtrip (s : Bitset) (l : List Bool) (k : Nat)
    (hb : s.bits = some l) (hl : l.length = s.len) (h0 : 0 < s.len) :
    ∃ s', bitset_lrot (some s) k true = (BITSET_GOOD, some s') ∧
      bitset_rrot (some s') k true = (BITSET_GOOD, some s) := by
  by_cases hm : k % s.len = 0
  · exact ⟨s, bitset_lrot_mod_zero k true hb hm, bitset_rrot_mod_zero k true hb hm⟩
  · have hmlt : k % s.len < s.len := Nat.mod_lt k h0
    have hdlen : (l.drop (k % s.len)).length = s.len - k % s.len := by simp [hl]
    have hlen2 : (l.drop (k % s.len) ++ l.take (k % s.len)).length = s.len := by
      simp [hl]
      omega
    refine ⟨{ s with bits := some (l.drop (k % s.len) ++ l.take (k % s.len)) },
      bitset_lrot_eq k hb hl h0 hm, ?_⟩
    rw [@bitset_rrot_eq { s with bits := some (l.drop (k % s.len) ++ l.take (k % s.len)) }
        (l.drop (k % s.len) ++ l.take (k % s.len)) k rfl hlen2 h0 hm,
      List.drop_left' hdlen, List.take_left' hdlen, List.take_append_drop, with_bits_self hb]

theorem C3_rot_roundtrip_witness :
    ∃ s', bitset_lrot (some ⟨some [true, false, false, true, false], 5⟩) 3 true =
        (BITSET_GOOD, some s') ∧
      bitset_rrot (some s') 3 true =
        (BITSET_GOOD, some ⟨some [true, false, false, true, false], 5⟩) :=
  C3_rot_roundtrip ⟨some [true, false, false, true, false], 5⟩
    [true, false, false, true, false] 3 rfl rfl (by decide)

/-- Claim C8: in bitset_lrot and bitset_rrot, a bitset whose buffer
pointer is null is rejected with NullInput before the expression
n mod len is consulted — the rejection holds for every value of the
length field, including 0, the case in which evaluating the modulo in C
would divide by zero — and every struct state reachable through the
public constructors and operations has a positive length field, so an
initialized bitset never presents a zero divisor to the modulo. -/
theorem C8_mod_safety (len n : Nat) (alloc : Bool) (s : Bitset) (hr : Reachable s) :
    (bitset_lrot (some ⟨none, len⟩) n alloc = (BITSET_NULL_ERR, some ⟨none, len⟩) ∧
      bitset_rrot (some ⟨none, len⟩) n alloc = (BITSET_NULL_ERR, some ⟨none, len⟩)) ∧
    (∀ l, s.bits = some l → 0 < s.len) :=
  ⟨⟨rfl, rfl⟩, fun _ _ => hr.len_pos⟩

theorem C8_mod_safety_witness :
    (bitset_lrot (some ⟨none, 0⟩) 5 true = (BITSET_NULL_ERR, some ⟨none, 0⟩) ∧
      bitset_rrot (some ⟨none, 0⟩) 5 true = (BITSET_NULL_ERR, some ⟨none, 0⟩)) ∧
    0 < (⟨some (List.replicate 2 false), 2⟩ : Bitset).len := by
  have h := C8_mod_safety 0 5 true ⟨some (List.replicate 2 false), 2⟩
    (Reachable.init ⟨none, 0⟩ 2 true ⟨some (List.replicate 2 false), 2⟩ (by decide) rfl)
  exact ⟨h.1, h.2 (List.replicate 2 false) rfl⟩

/-- Claim C7: for a non-null handle, a non-null string (modelled by its
characters before the NUL terminator) and n positive, bit-string
construction with a successful allocation yields status 0 and a bitset
of n cells in which cell i is true exactly when character i of the
string is '1', every cell at or beyond the terminator position being
false; in particular length 5 from the string 101 yields the cells
[1,0,1,0,0]. -/
theorem C7_init_bstr_spec (s : Bitset) (cs : List Char) (n : Nat) (hn : 0 < n)
    (hNul : Char.ofNat 0 ∉ cs) :
    ∃ L, bitset_init_bstr (some s) (some cs) n true = (BITSET_GOOD, some ⟨some L, n⟩) ∧
      L.length = n ∧
      (∀ i, i < n → L.getD i false =
        if i < cs.length then (if cs.getD i (Char.ofNat 0) = '1' then true else false)
        else false) ∧
      (bitset_init_bstr (some ⟨none, 0⟩) (some ['1', '0', '1']) 5 true).2 =
        some ⟨some [true, false, true, false, false], 5⟩ := by
  refine ⟨bstr_loop (List.replicate n false) cs 0 n, ?_, ?_, ?_, by decide⟩
  · simp only [bitset_init_bstr]
    rw [if_neg (by omega)]
    rfl
  · rw [bstr_loop_length, List.length_replicate]
  · intro i hi
    rw [List.getD_eq_getElem?_getD, bstr_loop_getElem? cs hNul n 0 _ i]
    by_cases hic : i < cs.length
    · rw [if_pos (show 0 ≤ i ∧ i < 0 + n ∧ i < cs.length ∧
        i < (List.replicate n false).length by
          rw [List.length_replicate]; exact ⟨Nat.zero_le i, by omega, hic, hi⟩),
        if_pos hic]
      rfl
    · rw [if_neg (show ¬(0 ≤ i ∧ i < 0 + n ∧ i < cs.length ∧
        i < (List.replicate n false).length) by
          rw [List.length_replicate]; omega),
        if_neg hic, List.getElem?_replicate, if_pos hi]
      rfl

theorem C7_init_bstr_spec_witness :
    (bitset_init_bstr (some ⟨none, 0⟩) (some ['1', '0', '1']) 5 true).2 =
      some ⟨some [true, false, true, false, false], 5⟩ :=
  (C7_init_bstr_spec ⟨none, 0⟩ ['1', '0', '1'] 5 (by decide) (by decide)).choose_spec.2.2.2

/-- Claim C6: for a non-null handle, a non-null string (modelled by its
byte characters, each below 256, before the NUL terminator) and n
positive, byte-string construction with a successful allocation yields
status 0 and a bitset of exactly n * 8 cells in which character i of the
string is expanded most-significant-bit-first into the cells
[8 i, 8 i + 8) (cell 8 i + j holds bit 7 - j of the character), and every
slice at or beyond the terminator position is all-false; in particular
the single character A (0x41) over length 1 yields the 8-cell sequence
[0,1,0,0,0,0,0,1]. -/
theorem C6_init_str_spec (s : Bitset) (cs : List Char) (n : Nat) (hn : 0 < n)
    (hNul : Char.ofNat 0 ∉ cs) (hByte : ∀ c ∈ cs, c.toNat < 256) :
    ∃ L, bitset_init_str (some s) (some cs) n true =
        (BITSET_GOOD, some ⟨some L, n * CHAR_LEN⟩) ∧
      L.length = n * CHAR_LEN ∧
      (∀ i j, i < n → j < CHAR_LEN →
        L.getD (i * CHAR_LEN + j) false =
          if i < cs.length then (cs.getD i (Char.ofNat 0)).toNat.testBit (CHAR_LEN - 1 - j)
          else false) ∧
      (bitset_init_str (some ⟨none, 0⟩) (some ['A']) 1 true).2 =
        some ⟨some [false, true, false, false, false, false, false, true], CHAR_LEN⟩ := by
  refine ⟨str_loop (List.replicate (n * CHAR_LEN) false) cs 0 n, ?_, ?_, ?_, by decide⟩
  · simp only [bitset_init_str]
    rw [if_neg (by omega)]
    rfl
  · rw [str_loop_length cs n 0 _
      (by simp only [CHAR_LEN, List.length_replicate]; omega), List.length_replicate]
  · intro i j hi hj
    rw [List.getD_eq_getElem?_getD,
      str_loop_getElem? cs hNul n 0 _
        (by simp only [CHAR_LEN, List.length_replicate]; omega) (i * CHAR_LEN + j)]
    by_cases hic : i < cs.length
    · rw [if_pos (show 0 * CHAR_LEN ≤ i * CHAR_LEN + j ∧
        i * CHAR_LEN + j < (min (0 + n) cs.length) * CHAR_LEN by
          simp only [CHAR_LEN] at hj ⊢; omega)]
      have hdiv : (i * CHAR_LEN + j) / CHAR_LEN = i := by
        simp only [CHAR_LEN] at hj ⊢
        omega
      have hmod : (i * CHAR_LEN + j) % CHAR_LEN = j := by
        simp only [CHAR_LEN] at hj ⊢
        omega
      rw [hdiv, hmod, if_pos hic]
      have hgd : cs.getD i (Char.ofNat 0) = cs[i] := by
        rw [List.getD_eq_getElem?_getD, List.getElem?_eq_getElem hic]
        rfl
      have hlt : (cs.getD i (Char.ofNat 0)).toNat < 256 := by
        rw [hgd]
        exact hByte _ (List.getElem_mem hic)
      rw [Nat.mod_eq_of_lt hlt]
      rfl
    · rw [if_neg (show ¬(0 * CHAR_LEN ≤ i * CHAR_LEN + j ∧
        i * CHAR_LEN + j < (min (0 + n) cs.length) * CHAR_LEN) by
          simp only [CHAR_LEN] at hj ⊢; omega),
        if_neg hic, List.getElem?_replicate,
        if_pos (show i * CHAR_LEN + j < n * CHAR_LEN by
          simp only [CHAR_LEN] at hj ⊢; omega)]
      rfl

theorem C6_init_str_spec_witness :
    (bitset_init_str (some ⟨none, 0⟩) (some ['A']) 1 true).2 =
      some ⟨some [false, true, false, false, false, false, false, true], CHAR_LEN⟩ :=
  (C6_init_str_spec ⟨none, 0⟩ ['A'] 1 (by decide) (by decide)
    (by intro c hc; cases hc with
      | head => decide
      | tail _ h => cases h)).choose_spec.2.2.2
